import Mathlib

/-!
Verification of the `simple-ring` ring buffer (`src/lib.rs`).

The Rust code stores two `usize` cursors (`reader`, `writer`) in `Cell`s, a
fixed `length`, and a raw pointer to a byte array of that length.  We embed it
shallowly: `usize` becomes `Nat` reduced modulo `2 ^ 64` wherever the Rust code
performs wrapping arithmetic, the byte array becomes a `List Nat` (the `u8`
values are opaque here: the code never computes with them), and the panicking
paths (`assert!` in `incr_reader` / `incr_writer`, division by a zero capacity
in `phy`, and the `expect` inside `read`) are modeled by `Option`, `none`
standing for an abort.  `ByteArray::get`/`set` are `List.getD`/`List.set`;
the indices supplied by the code are always `phy _ < length`, in bounds for
every state whose buffer really has `length` elements, which the construction
macros guarantee and the invariant `Inv` records.
-/

namespace SimpleRing

/-- Number of values of `usize` on the 64-bit targets the crate is built for. -/
def USIZE : Nat := 2 ^ 64

/-- Rust `usize::wrapping_add`. -/
def wrapping_add (a b : Nat) : Nat := (a + b) % USIZE

/-- Rust `usize::wrapping_sub` (two's-complement wraparound). -/
def wrapping_sub (a b : Nat) : Nat := (a % USIZE + (USIZE - b % USIZE)) % USIZE

/-- The `RingBuf` struct: `reader`/`writer` cursors, `length`, backing buffer. -/
structure RingBuf where
  reader : Nat
  writer : Nat
  length : Nat
  buffer : List Nat
deriving Repr, DecidableEq

namespace RingBuf

/-- `fn cap(&self) -> usize { self.length }` -/
def cap (r : RingBuf) : Nat := r.length

/-- `fn len(&self) -> usize { self.writer.get().wrapping_sub(self.reader.get()) }` -/
def len (r : RingBuf) : Nat := wrapping_sub r.writer r.reader

/-- `fn rem(&self) -> usize { self.cap().wrapping_sub(self.len()) }` -/
def rem (r : RingBuf) : Nat := wrapping_sub r.cap r.len

/-- `fn is_empty(&self) -> bool { self.reader.get() == self.writer.get() }` -/
def is_empty (r : RingBuf) : Bool := r.reader == r.writer

/-- `fn is_full(&self) -> bool { self.len() == self.cap() }` -/
def is_full (r : RingBuf) : Bool := r.len == r.cap

/-- `fn incr_reader(&self)`: asserts the buffer is not empty (abort = `none`),
then bumps `reader` with wrapping addition. -/
def incr_reader (r : RingBuf) : Option RingBuf :=
  if r.is_empty then none
  else some { r with reader := wrapping_add r.reader 1 }

/-- `fn incr_writer(&self)`: asserts the buffer is not full (abort = `none`),
then bumps `writer` with wrapping addition. -/
def incr_writer (r : RingBuf) : Option RingBuf :=
  if r.is_full then none
  else some { r with writer := wrapping_add r.writer 1 }

/-- `fn phy(&self, index: usize) -> usize { index % self.cap() }` -/
def phy (r : RingBuf) (index : Nat) : Nat := index % r.cap

/-- `fn enqueue(&self, value: u8) -> bool`: on a full buffer returns `false`
and changes nothing; otherwise stores `value` at slot `phy(writer)`, bumps the
writer cursor and returns `true`.  The result state is paired with the returned
`bool`; `none` is an abort (unreachable here, but kept for faithfulness to the
`assert!` inside `incr_writer`). -/
def enqueue (r : RingBuf) (value : Nat) : Option (RingBuf × Bool) :=
  if r.is_full then some (r, false)
  else
    let w := r.phy r.writer
    let r1 : RingBuf := { r with buffer := r.buffer.set w value }
    match r1.incr_writer with
    | none => none
    | some r2 => some (r2, true)

/-- `fn dequeue(&self) -> Option<u8>`: on an empty buffer returns `None` and
changes nothing; otherwise reads slot `phy(reader)`, bumps the reader cursor
and returns the value. -/
def dequeue (r : RingBuf) : Option (RingBuf × Option Nat) :=
  if r.is_empty then some (r, none)
  else
    let i := r.phy r.reader
    let value := r.buffer.getD i 0
    match r.incr_reader with
    | none => none
    | some r1 => some (r1, some value)

/-- The loop body of `write`: enqueue the elements of `l` in order, collecting
the (discarded by `write`) boolean results.  `none` propagates an abort. -/
def enqueueList (r : RingBuf) (l : List Nat) : Option (RingBuf × List Bool) :=
  match l with
  | [] => some (r, [])
  | v :: t =>
    match r.enqueue v with
    | none => none
    | some (r1, b) =>
      match enqueueList r1 t with
      | none => none
      | some (r2, bs) => some (r2, b :: bs)

/-- `fn write(&self, buf: &[u8]) -> usize`: `n = min(rem, buf.len())`, then
`enqueue(buf[i])` for `i in 0..n` (results discarded), returning `n`. -/
def write (r : RingBuf) (buf : List Nat) : Option (RingBuf × Nat) :=
  let n := min r.rem buf.length
  match enqueueList r (buf.take n) with
  | none => none
  | some (r1, _) => some (r1, n)

/-- The loop body of `read`: dequeue `n` times, each time demanding a value
(`expect("Ring buffer is empty")`, abort = `none`), collecting the values. -/
def dequeueList (r : RingBuf) (n : Nat) : Option (RingBuf × List Nat) :=
  match n with
  | 0 => some (r, [])
  | Nat.succ m =>
    match r.dequeue with
    | none => none
    | some (_, none) => none
    | some (r1, some v) =>
      match dequeueList r1 m with
      | none => none
      | some (r2, vs) => some (r2, v :: vs)

/-- `fn read(&self, buf: &mut [u8]) -> usize`: `n = min(len, buf.len())`, then
`buf[i] = dequeue().expect(..)` for `i in 0..n`, returning `n`.  The mutated
output slice (its first `n` cells overwritten) is returned alongside. -/
def read (r : RingBuf) (buf : List Nat) : Option (RingBuf × List Nat × Nat) :=
  let n := min r.len buf.length
  match dequeueList r n with
  | none => none
  | some (r1, vs) => some (r1, (vs ++ buf.drop vs.length, n))

/-- The buffer produced by the `ring_buf!` / `static_ring_buf!` macros:
both cursors zero, a zeroed backing array of `n` bytes. -/
def new (n : Nat) : RingBuf :=
  { reader := 0, writer := 0, length := n, buffer := List.replicate n 0 }

end RingBuf

/-- One public operation of the API (`rd k` reads into a scratch output buffer
of length `k`, whose initial contents are irrelevant to the ring state). -/
inductive Op where
  | enq (v : Nat)
  | deq
  | wr (buf : List Nat)
  | rd (k : Nat)
deriving Repr, DecidableEq

/-- Effect of one public operation on the ring state (`none` = abort). -/
def stepOp (r : RingBuf) : Op → Option RingBuf
  | Op.enq v => (r.enqueue v).map Prod.fst
  | Op.deq => (r.dequeue).map Prod.fst
  | Op.wr buf => (r.write buf).map Prod.fst
  | Op.rd k => (r.read (List.replicate k 0)).map Prod.fst

/-- Run a sequence of public operations (`none` = some step aborted). -/
def runOps (r : RingBuf) : List Op → Option RingBuf
  | [] => some r
  | op :: ops =>
    match stepOp r op with
    | none => none
    | some r1 => runOps r1 ops

/-- States reachable from a freshly constructed buffer of capacity `n`
through the public API. -/
inductive Reachable (n : Nat) : RingBuf → Prop where
  | init : Reachable n (RingBuf.new n)
  | step {r r' : RingBuf} {op : Op} :
      Reachable n r → stepOp r op = some r' → Reachable n r'

/-- The state invariant: cursors are genuine `usize` values, the backing
buffer really has `length` elements, the capacity is a nonzero `usize`, and
the occupied count never exceeds the capacity. -/
def Inv (r : RingBuf) : Prop :=
  r.reader < USIZE ∧ r.writer < USIZE ∧ r.buffer.length = r.length ∧
    0 < r.length ∧ r.length < USIZE ∧ r.len ≤ r.length

/-- Modelled from the spec: the abstract FIFO queue a state represents — the
elements at logical positions `reader, reader+1, …, reader+len-1` (cursor
arithmetic wrapping mod `2^64`, slot mapping mod capacity). -/
def absQueue (r : RingBuf) : List Nat :=
  (List.range r.len).map (fun i => r.buffer.getD (r.phy ((r.reader + i) % USIZE)) 0)

/-- Modelled from the spec: one step of the ideal bounded FIFO queue of
capacity `n` that the spec describes (`enqueue` drops on full, `dequeue` pops
the head, `write` appends what fits, `read` removes up to `k` elements). -/
def specStep (n : Nat) (q : List Nat) : Op → List Nat
  | Op.enq v => if q.length = n then q else q ++ [v]
  | Op.deq => q.tail
  | Op.wr buf => q ++ buf.take (n - q.length)
  | Op.rd k => q.drop k

/-- Modelled from the spec: run the ideal bounded queue over an operation
sequence. -/
def specRun (n : Nat) (q : List Nat) : List Op → List Nat
  | [] => q
  | op :: ops => specRun n (specStep n q op) ops

/-- The state a successful (non-full) `enqueue v` produces. -/
def enqNext (r : RingBuf) (v : Nat) : RingBuf :=
  { r with writer := wrapping_add r.writer 1,
           buffer := r.buffer.set (r.phy r.writer) v }

/-- The state a successful (non-empty) `dequeue` produces. -/
def deqNext (r : RingBuf) : RingBuf :=
  { r with reader := wrapping_add r.reader 1 }

instance decidableInv (r : RingBuf) : Decidable (Inv r) := by
  unfold Inv
  infer_instance

/-- A fresh, empty capacity-2 buffer (concrete test state). -/
def sampleEmpty2 : RingBuf :=
  { reader := 0, writer := 0, length := 2, buffer := [0, 0] }

/-- A capacity-2 buffer holding one element (concrete test state). -/
def sampleOne2 : RingBuf :=
  { reader := 0, writer := 1, length := 2, buffer := [9, 0] }

/-- A capacity-3 buffer holding one element mid-stream (concrete test state). -/
def sampleMid3 : RingBuf :=
  { reader := 1, writer := 2, length := 3, buffer := [5, 6, 0] }

/-- An empty capacity-3 buffer whose cursors sit just before the `2^64`
wrap point (reachable after `2^64 - 1` enqueue/dequeue pairs). -/
def wrapEmpty3 : RingBuf :=
  { reader := USIZE - 1, writer := USIZE - 1, length := 3, buffer := [0, 0, 0] }

/-- The capacity-3 state with both cursors at `k` and zeroed storage. -/
def diag3 (k : Nat) : RingBuf :=
  { reader := k, writer := k, length := 3, buffer := [0, 0, 0] }

/-- The capacity-3 state with cursors `(k, k + 1)` and zeroed storage. -/
def diag3' (k : Nat) : RingBuf :=
  { reader := k, writer := k + 1, length := 3, buffer := [0, 0, 0] }

/-- An empty capacity-4 buffer whose cursors sit just before the `2^64`
wrap point (4 divides `2^64`). -/
def wrapEmpty4 : RingBuf :=
  { reader := USIZE - 1, writer := USIZE - 1, length := 4, buffer := [9, 9, 9, 9] }

theorem USIZE_pos : 0 < USIZE := by norm_num [USIZE]

theorem wrapping_sub_lt (a b : Nat) : wrapping_sub a b < USIZE :=
  Nat.mod_lt _ USIZE_pos

theorem wrapping_add_lt (a b : Nat) : wrapping_add a b < USIZE :=
  Nat.mod_lt _ USIZE_pos

/-- `wrapping_sub a b` is the unique `usize` that, added to `b`, gives back
`a` modulo `2^64`. -/
theorem wrapping_sub_spec (a b : Nat) (ha : a < USIZE) (hb : b < USIZE) :
    (b + wrapping_sub a b) % USIZE = a := by
  unfold wrapping_sub
  simp only [USIZE] at *
  omega

theorem wrapping_sub_unique (a b c : Nat) (hb : b < USIZE) (hc : c < USIZE)
    (h : (b + c) % USIZE = a) : c = wrapping_sub a b := by
  have ha : a < USIZE := h ▸ Nat.mod_lt _ USIZE_pos
  have h1 := wrapping_sub_spec a b ha hb
  have h2 := wrapping_sub_lt a b
  unfold wrapping_sub at *
  simp only [USIZE] at *
  omega

theorem wrapping_sub_self (a : Nat) : wrapping_sub a a = 0 := by
  unfold wrapping_sub
  simp only [USIZE]
  omega

theorem wrapping_sub_eq_zero {a b : Nat} (ha : a < USIZE) (hb : b < USIZE)
    (h : wrapping_sub a b = 0) : a = b := by
  unfold wrapping_sub at h
  simp only [USIZE] at *
  omega

namespace RingBuf

theorem len_lt_USIZE (r : RingBuf) : r.len < USIZE := wrapping_sub_lt _ _

/-- The writer cursor sits `len` logical positions beyond the reader cursor. -/
theorem reader_add_len (r : RingBuf) (hr : r.reader < USIZE)
    (hw : r.writer < USIZE) : (r.reader + r.len) % USIZE = r.writer :=
  wrapping_sub_spec r.writer r.reader hw hr

theorem len_enqNext (r : RingBuf) (v : Nat) (hr : r.reader < USIZE)
    (hw : r.writer < USIZE) (hl : r.len + 1 < USIZE) :
    (enqNext r v).len = r.len + 1 := by
  have h := reader_add_len r hr hw
  have hgoal : (r.reader + (r.len + 1)) % USIZE = wrapping_add r.writer 1 := by
    rw [← Nat.add_assoc, wrapping_add, ← Nat.mod_add_mod, h]
  have := wrapping_sub_unique (wrapping_add r.writer 1) r.reader (r.len + 1)
    hr hl hgoal
  simpa [enqNext, RingBuf.len] using this.symm

theorem len_deqNext (r : RingBuf) (hr : r.reader < USIZE)
    (hw : r.writer < USIZE) (hpos : 0 < r.len) :
    (deqNext r).len = r.len - 1 := by
  have h := reader_add_len r hr hw
  have hgoal : (wrapping_add r.reader 1 + (r.len - 1)) % USIZE = r.writer := by
    rw [wrapping_add, Nat.mod_add_mod]
    have : r.reader + 1 + (r.len - 1) = r.reader + r.len := by omega
    rw [this, h]
  have := wrapping_sub_unique r.writer (wrapping_add r.reader 1) (r.len - 1)
    (wrapping_add_lt _ _) (by have := r.len_lt_USIZE; omega) hgoal
  simpa [deqNext, RingBuf.len] using this.symm

theorem is_empty_iff (r : RingBuf) (hr : r.reader < USIZE)
    (hw : r.writer < USIZE) : r.is_empty = true ↔ r.len = 0 := by
  unfold RingBuf.is_empty RingBuf.len
  constructor
  · intro h
    rw [beq_iff_eq] at h
    rw [h, wrapping_sub_self]
  · intro h
    rw [beq_iff_eq]
    exact (wrapping_sub_eq_zero hw hr h).symm

theorem is_full_iff (r : RingBuf) : r.is_full = true ↔ r.len = r.cap := by
  simp [RingBuf.is_full]

theorem rem_eq (r : RingBuf) (hlen : r.len ≤ r.cap) (hcap : r.cap < USIZE) :
    r.rem = r.cap - r.len := by
  have h : (r.len + (r.cap - r.len)) % USIZE = r.cap := by
    rw [Nat.add_sub_cancel' hlen, Nat.mod_eq_of_lt hcap]
  have := wrapping_sub_unique r.cap r.len (r.cap - r.len)
    r.len_lt_USIZE (by omega) h
  simpa [RingBuf.rem] using this.symm

theorem enqueue_full {r : RingBuf} (h : r.len = r.cap) (v : Nat) :
    r.enqueue v = some (r, false) := by
  simp [RingBuf.enqueue, RingBuf.is_full, h]

theorem enqueue_not_full {r : RingBuf} (h : r.len ≠ r.cap) (v : Nat) :
    r.enqueue v = some (enqNext r v, true) := by
  have h' : wrapping_sub r.writer r.reader ≠ r.length := by
    simpa [RingBuf.len, RingBuf.cap] using h
  simp [RingBuf.enqueue, RingBuf.is_full, RingBuf.incr_writer, RingBuf.len,
    RingBuf.cap, enqNext, h']

theorem dequeue_empty {r : RingBuf} (h : r.reader = r.writer) :
    r.dequeue = some (r, none) := by
  simp [RingBuf.dequeue, RingBuf.is_empty, h]

theorem dequeue_not_empty {r : RingBuf} (h : r.reader ≠ r.writer) :
    r.dequeue = some (deqNext r, some (r.buffer.getD (r.phy r.reader) 0)) := by
  simp [RingBuf.dequeue, RingBuf.is_empty, RingBuf.incr_reader, deqNext, h]

theorem len_ne_zero_of_ne {r : RingBuf} (hr : r.reader < USIZE)
    (hw : r.writer < USIZE) (h : r.reader ≠ r.writer) : r.len ≠ 0 := by
  intro h0
  exact h (wrapping_sub_eq_zero hw hr h0).symm

theorem reader_ne_of_len_pos {r : RingBuf} (h : 0 < r.len) :
    r.reader ≠ r.writer := by
  intro he
  rw [RingBuf.len, he, wrapping_sub_self] at h
  omega

end RingBuf

theorem inv_enqNext {r : RingBuf} (hI : Inv r) (h : r.len < r.cap) (v : Nat) :
    Inv (enqNext r v) := by
  obtain ⟨h1, h2, h3, h4, h5, h6⟩ := hI
  have hlen : (enqNext r v).len = r.len + 1 :=
    r.len_enqNext v h1 h2 (by simp only [RingBuf.cap] at h; omega)
  refine ⟨h1, wrapping_add_lt _ _, ?_, h4, h5, ?_⟩
  · simp [enqNext, h3]
  · rw [hlen]
    show r.len + 1 ≤ r.length
    simp only [RingBuf.cap] at h
    omega

theorem inv_deqNext {r : RingBuf} (hI : Inv r) (h : 0 < r.len) :
    Inv (deqNext r) := by
  obtain ⟨h1, h2, h3, h4, h5, h6⟩ := hI
  have hlen : (deqNext r).len = r.len - 1 := r.len_deqNext h1 h2 h
  refine ⟨wrapping_add_lt _ _, h2, h3, h4, h5, ?_⟩
  rw [hlen]
  show r.len - 1 ≤ r.length
  omega

theorem inv_new {n : Nat} (h0 : 0 < n) (hU : n < USIZE) : Inv (RingBuf.new n) := by
  refine ⟨USIZE_pos, USIZE_pos, ?_, h0, hU, ?_⟩
  · simp [RingBuf.new]
  · simp [RingBuf.new, RingBuf.len, wrapping_sub_self]

theorem getD_set_self (l : List Nat) (i : Nat) (h : i < l.length) (v d : Nat) :
    (l.set i v).getD i d = v := by
  induction l generalizing i with
  | nil => simp at h
  | cons a t ih =>
    cases i with
    | zero => rfl
    | succ j =>
      have hj : j < t.length := by simpa using h
      simpa [List.getD] using by simpa [List.getD] using ih j hj

theorem getD_set_ne (l : List Nat) (i j : Nat) (h : i ≠ j) (v d : Nat) :
    (l.set i v).getD j d = l.getD j d := by
  induction l generalizing i j with
  | nil => rfl
  | cons a t ih =>
    cases i with
    | zero =>
      cases j with
      | zero => exact absurd rfl h
      | succ m => rfl
    | succ k =>
      cases j with
      | zero => rfl
      | succ m =>
        have hk : k ≠ m := fun he => h (by rw [he])
        simpa [List.getD] using by simpa [List.getD] using ih k m hk

theorem absQueue_length (r : RingBuf) : (absQueue r).length = r.len := by
  simp [absQueue]

theorem absQueue_nil (r : RingBuf) (h : r.len = 0) : absQueue r = [] := by
  simp [absQueue, h]

theorem absQueue_headD (r : RingBuf) (hr : r.reader < USIZE) (h : 0 < r.len) :
    (absQueue r).headD 0 = r.buffer.getD (r.phy r.reader) 0 := by
  unfold absQueue
  obtain ⟨m, hm⟩ : ∃ m, r.len = m + 1 := ⟨r.len - 1, by omega⟩
  rw [hm, List.range_succ_eq_map]
  simp [Nat.mod_eq_of_lt hr]

/-- Dequeuing pops the head of the abstract queue (true for every capacity,
wrapped cursors included). -/
theorem absQueue_deqNext (r : RingBuf) (hI : Inv r) (h : 0 < r.len) :
    absQueue r = r.buffer.getD (r.phy r.reader) 0 :: absQueue (deqNext r) := by
  obtain ⟨h1, h2, _, _, _, _⟩ := hI
  have hlen : (deqNext r).len = r.len - 1 := r.len_deqNext h1 h2 h
  obtain ⟨m, hm⟩ : ∃ m, r.len = m + 1 := ⟨r.len - 1, by omega⟩
  unfold absQueue
  rw [hm, List.range_succ_eq_map, List.map_cons, List.map_map, hlen, hm]
  simp only [Nat.add_sub_cancel]
  congr 1
  · simp [Nat.mod_eq_of_lt h1]
  · apply List.map_congr_left
    intro i _
    have harg : (wrapping_add r.reader 1 + i) % USIZE = (r.reader + (i + 1)) % USIZE := by
      rw [wrapping_add, Nat.mod_add_mod]
      ring_nf
    simp only [Function.comp, deqNext, harg]
    rfl

/-- The physical slot of a logical position, when the capacity divides `2^64`
or when the position has not wrapped past `2^64`. -/
theorem slot_reduce (r : RingBuf) (i : Nat)
    (hgood : r.cap ∣ USIZE ∨ r.reader + r.cap ≤ USIZE) (hi : i < r.cap) :
    r.phy ((r.reader + i) % USIZE) = (r.reader + i) % r.cap := by
  rcases hgood with hd | hw
  · simp [RingBuf.phy, Nat.mod_mod_of_dvd _ hd]
  · have hlt : r.reader + i < USIZE := by omega
    simp [RingBuf.phy, Nat.mod_eq_of_lt hlt]

theorem slot_ne (cap reader i len : Nat) (hi : i < len) (hl : len < cap) :
    (reader + i) % cap ≠ (reader + len) % cap := by
  intro h
  have hle : reader + i ≤ reader + len := by omega
  have hdvd : cap ∣ reader + len - (reader + i) := (Nat.modEq_iff_dvd' hle).mp h
  have heq : reader + len - (reader + i) = len - i := by omega
  rw [heq] at hdvd
  have := Nat.le_of_dvd (by omega) hdvd
  omega

/-- A successful enqueue appends to the abstract queue, provided the capacity
divides `2^64` (always true for the crate's power-of-two storage sizes) or the
occupied logical positions do not cross the `2^64` wrap point. -/
theorem absQueue_enqNext (r : RingBuf) (hI : Inv r) (h : r.len < r.cap)
    (hgood : r.cap ∣ USIZE ∨ r.reader + r.cap ≤ USIZE) (v : Nat) :
    absQueue (enqNext r v) = absQueue r ++ [v] := by
  obtain ⟨h1, h2, h3, h4, h5, h6⟩ := hI
  have hcap : r.cap = r.length := rfl
  have hlen : (enqNext r v).len = r.len + 1 :=
    r.len_enqNext v h1 h2 (by omega)
  have key : ∀ i, i ≤ r.len →
      r.phy ((r.reader + i) % USIZE) = (r.reader + i) % r.cap :=
    fun i hi => slot_reduce r i hgood (by omega)
  have hw : r.phy r.writer = (r.reader + r.len) % r.cap := by
    rw [← r.reader_add_len h1 h2]
    exact key r.len le_rfl
  have hbody : ∀ i, (enqNext r v).buffer.getD
        ((enqNext r v).phy (((enqNext r v).reader + i) % USIZE)) 0
      = (r.buffer.set (r.phy r.writer) v).getD (r.phy ((r.reader + i) % USIZE)) 0 :=
    fun i => rfl
  unfold absQueue
  rw [hlen, List.range_succ, List.map_append, List.map_singleton]
  congr 1
  · apply List.map_congr_left
    intro i hi
    rw [List.mem_range] at hi
    rw [hbody i, key i (le_of_lt hi), hw]
    exact getD_set_ne _ _ _ (slot_ne r.cap r.reader i r.len hi h).symm v 0
  · rw [hbody r.len, key r.len le_rfl, hw]
    have hs : (r.reader + r.len) % r.cap < r.buffer.length := by
      rw [h3, ← hcap]
      exact Nat.mod_lt _ h4
    rw [getD_set_self _ _ hs]

/-- Dequeuing `k ≤ len` times succeeds, yields the first `k` abstract-queue
elements in order, and leaves the rest of the state untouched. -/
theorem dequeueList_spec {k : Nat} :
    ∀ r : RingBuf, Inv r → k ≤ r.len →
    ∃ r', RingBuf.dequeueList r k = some (r', (absQueue r).take k) ∧
      r'.writer = r.writer ∧ r'.length = r.length ∧ r'.buffer = r.buffer ∧
      r'.len = r.len - k ∧ absQueue r' = (absQueue r).drop k ∧ Inv r' := by
  induction k with
  | zero =>
    intro r hI _
    exact ⟨r, rfl, rfl, rfl, rfl, rfl, rfl, hI⟩
  | succ m ih =>
    intro r hI hk
    have hpos : 0 < r.len := by omega
    have hne := RingBuf.reader_ne_of_len_pos hpos
    have hdq := RingBuf.dequeue_not_empty hne
    have hIq := inv_deqNext hI hpos
    have hlenq : (deqNext r).len = r.len - 1 := r.len_deqNext hI.1 hI.2.1 hpos
    obtain ⟨r', heq, hw, hl, hb, hlen', habs, hI'⟩ :=
      ih (deqNext r) hIq (by omega)
    have hcons := absQueue_deqNext r hI hpos
    refine ⟨r', ?_, ?_, ?_, ?_, ?_, ?_, hI'⟩
    · simp only [RingBuf.dequeueList, hdq, heq, hcons, List.take_succ_cons]
    · rw [hw]; rfl
    · rw [hl]; rfl
    · rw [hb]; rfl
    · rw [hlen', hlenq]; omega
    · rw [habs, hcons, List.drop_succ_cons]

/-- Enqueuing a list that fits into the free space succeeds element by
element (every `enqueue` returns `true`) and appends it to the abstract
queue (under the wrap-correctness side condition). -/
theorem enqueueList_spec {l : List Nat} :
    ∀ r : RingBuf, Inv r → r.len + l.length ≤ r.cap →
    ∃ r', RingBuf.enqueueList r l = some (r', List.replicate l.length true) ∧
      r'.reader = r.reader ∧ r'.length = r.length ∧
      r'.len = r.len + l.length ∧ Inv r' ∧
      ((r.cap ∣ USIZE ∨ r.reader + r.cap ≤ USIZE) →
        absQueue r' = absQueue r ++ l) := by
  induction l with
  | nil =>
    intro r hI _
    exact ⟨r, rfl, rfl, rfl, rfl, hI, fun _ => by simp⟩
  | cons v t ih =>
    intro r hI hl
    simp only [List.length_cons] at hl
    have hlt : r.len < r.cap := by omega
    have henq := RingBuf.enqueue_not_full (Nat.ne_of_lt hlt) v
    have hIe := inv_enqNext hI hlt v
    have hcap : r.cap = r.length := rfl
    have hlenU : r.length < USIZE := hI.2.2.2.2.1
    have hlene : (enqNext r v).len = r.len + 1 :=
      r.len_enqNext v hI.1 hI.2.1 (by omega)
    have hfit : (enqNext r v).len + t.length ≤ (enqNext r v).cap := by
      rw [hlene]
      show r.len + 1 + t.length ≤ r.length
      omega
    obtain ⟨r', heq, hrd, hlq, hlen', hI', habs⟩ := ih (enqNext r v) hIe hfit
    refine ⟨r', ?_, ?_, ?_, ?_, hI', ?_⟩
    · simp only [RingBuf.enqueueList, henq, heq, List.length_cons,
        List.replicate_succ]
    · rw [hrd]; rfl
    · rw [hlq]; rfl
    · rw [hlen', hlene, List.length_cons]; omega
    · intro hgood
      have h1 : absQueue (enqNext r v) = absQueue r ++ [v] :=
        absQueue_enqNext r hI hlt hgood v
      have hgood' : (enqNext r v).cap ∣ USIZE ∨
          (enqNext r v).reader + (enqNext r v).cap ≤ USIZE := hgood
      rw [habs hgood', h1, List.append_assoc, List.singleton_append]

/-- Full characterization of `write`: it writes `min(rem, buf.len)` leading
elements via successful enqueues and returns that count. -/
theorem write_spec (r : RingBuf) (buf : List Nat) (hI : Inv r) :
    ∃ r', r.write buf = some (r', min r.rem buf.length) ∧
      RingBuf.enqueueList r (buf.take (min r.rem buf.length)) =
        some (r', List.replicate (min r.rem buf.length) true) ∧
      r'.reader = r.reader ∧ r'.length = r.length ∧
      r'.len = r.len + min r.rem buf.length ∧ Inv r' ∧
      ((r.cap ∣ USIZE ∨ r.reader + r.cap ≤ USIZE) →
        absQueue r' = absQueue r ++ buf.take (min r.rem buf.length)) := by
  obtain ⟨h1, h2, h3, h4, h5, h6⟩ := hI
  have hcap : r.cap = r.length := rfl
  have hrem : r.rem = r.cap - r.len := r.rem_eq (by omega) (by omega)
  have htl : (buf.take (min r.rem buf.length)).length = min r.rem buf.length := by
    rw [List.length_take]
    omega
  have hfit : r.len + (buf.take (min r.rem buf.length)).length ≤ r.cap := by
    rw [htl]
    omega
  obtain ⟨r', heq, hrd, hlq, hlen', hI', habs⟩ :=
    enqueueList_spec r ⟨h1, h2, h3, h4, h5, h6⟩ hfit
  rw [htl] at heq hlen'
  refine ⟨r', ?_, heq, hrd, hlq, hlen', hI', habs⟩
  simp only [RingBuf.write, heq]

/-- Full characterization of `read`: it removes `min(len, buf.len)` elements,
returns them (in FIFO order) in the leading cells of the output buffer, and
returns that count. -/
theorem read_spec (r : RingBuf) (buf : List Nat) (hI : Inv r) :
    ∃ r', r.read buf = some (r',
        ((absQueue r).take (min r.len buf.length) ++
          buf.drop (min r.len buf.length), min r.len buf.length)) ∧
      r'.writer = r.writer ∧ r'.buffer = r.buffer ∧ r'.length = r.length ∧
      r'.len = r.len - min r.len buf.length ∧
      absQueue r' = (absQueue r).drop (min r.len buf.length) ∧ Inv r' := by
  obtain ⟨r', heq, hw, hl, hb, hlen', habs, hI'⟩ :=
    dequeueList_spec r hI (Nat.min_le_left r.len buf.length)
  have hvs : ((absQueue r).take (min r.len buf.length)).length
      = min r.len buf.length := by
    rw [List.length_take, absQueue_length]
    omega
  refine ⟨r', ?_, hw, hb, hl, hlen', habs, hI'⟩
  simp only [RingBuf.read, heq, hvs]

/-- Every public operation succeeds from an invariant state, preserves the
invariant and the capacity, and tracks the ideal bounded queue's length. -/
theorem stepOp_sim (r : RingBuf) (q : List Nat) (hI : Inv r)
    (hq : r.len = q.length) (op : Op) :
    ∃ r', stepOp r op = some r' ∧ Inv r' ∧ r'.length = r.length ∧
      r'.len = (specStep r.cap q op).length := by
  obtain ⟨h1, h2, h3, h4, h5, h6⟩ := hI
  have hcap : r.cap = r.length := rfl
  cases op with
  | enq v =>
    by_cases hfull : r.len = r.cap
    · rw [stepOp, RingBuf.enqueue_full hfull v]
      refine ⟨r, rfl, ⟨h1, h2, h3, h4, h5, h6⟩, rfl, ?_⟩
      simp [specStep, ← hq, hfull]
    · rw [stepOp, RingBuf.enqueue_not_full hfull v]
      have hlt : r.len < r.cap := by omega
      refine ⟨enqNext r v, rfl, inv_enqNext ⟨h1, h2, h3, h4, h5, h6⟩ hlt v,
        rfl, ?_⟩
      rw [r.len_enqNext v h1 h2 (by omega)]
      have hne : ¬ q.length = r.cap := by omega
      rw [hq]
      simp [specStep, hne]
  | deq =>
    by_cases hemp : r.len = 0
    · have he : r.reader = r.writer :=
        (wrapping_sub_eq_zero h2 h1 hemp).symm
      rw [stepOp, RingBuf.dequeue_empty he]
      refine ⟨r, rfl, ⟨h1, h2, h3, h4, h5, h6⟩, rfl, ?_⟩
      simp only [specStep, List.length_tail]
      omega
    · rw [stepOp,
        RingBuf.dequeue_not_empty (RingBuf.reader_ne_of_len_pos (by omega))]
      refine ⟨deqNext r, rfl, inv_deqNext ⟨h1, h2, h3, h4, h5, h6⟩ (by omega),
        rfl, ?_⟩
      rw [r.len_deqNext h1 h2 (by omega)]
      simp only [specStep, List.length_tail]
      omega
  | wr buf =>
    obtain ⟨r', heq, _, _, hlq, hlen', hI', _⟩ :=
      write_spec r buf ⟨h1, h2, h3, h4, h5, h6⟩
    have hrem : r.rem = r.cap - r.len := r.rem_eq (by omega) (by omega)
    refine ⟨r', by rw [stepOp, heq]; rfl, hI', hlq, ?_⟩
    simp only [specStep, List.length_append, List.length_take]
    omega
  | rd k =>
    obtain ⟨r', heq, _, _, hlq, hlen', _, hI'⟩ :=
      read_spec r (List.replicate k 0) ⟨h1, h2, h3, h4, h5, h6⟩
    refine ⟨r', by rw [stepOp, heq]; rfl, hI', hlq, ?_⟩
    simp only [List.length_replicate] at hlen'
    simp only [specStep, List.length_drop]
    omega

/-- Running a sequence of public operations from an invariant state never
aborts a simulation step and tracks the ideal bounded queue. -/
theorem runOps_sim (n : Nat) (ops : List Op) :
    ∀ (r : RingBuf) (q : List Nat), Inv r → r.length = n → r.len = q.length →
    ∀ r', runOps r ops = some r' → Inv r' ∧ r'.length = n ∧
      r'.len = (specRun n q ops).length := by
  induction ops with
  | nil =>
    intro r q hI hn hq r' h
    obtain rfl : r = r' := by simpa [runOps] using h
    exact ⟨hI, hn, hq⟩
  | cons op ops ih =>
    intro r q hI hn hq r' h
    obtain ⟨r1, hstep, hI1, hl1, hlen1⟩ := stepOp_sim r q hI hq op
    have hcapn : r.cap = n := hn
    rw [hcapn] at hlen1
    rw [runOps, hstep] at h
    exact ih r1 (specStep n q op) hI1 (hl1.trans hn) hlen1 r' h

/-- Every state reachable through the public API satisfies the invariant. -/
theorem reach_inv {n : Nat} {r : RingBuf} (h0 : 0 < n) (hU : n < USIZE)
    (h : Reachable n r) : Inv r ∧ r.length = n := by
  induction h with
  | init => exact ⟨inv_new h0 hU, rfl⟩
  | @step r1 r2 op _ hstep ih =>
    obtain ⟨hI, hn⟩ := ih
    obtain ⟨r'', hs, hI', hl, _⟩ :=
      stepOp_sim r1 (List.replicate r1.len 0) hI
        (List.length_replicate _ _).symm op
    rw [hstep] at hs
    injection hs with hs'
    subst hs'
    exact ⟨hI', hl.trans hn⟩

theorem new_len (n : Nat) : (RingBuf.new n).len = 0 := by
  simp [RingBuf.new, RingBuf.len, wrapping_sub_self]

/-- C1: for every sequence of enqueue/dequeue/write/read operations from a
freshly constructed buffer of capacity `N > 0`, the occupied count
`write_cursor - read_cursor` (wrapping subtraction) lies in `[0, N]`
(it is a `Nat`, hence never negative) and equals the number of elements
currently queued — the length of the ideal bounded FIFO queue driven by the
same operations. -/
theorem C1_occupied_count (n : Nat) (ops : List Op) (r : RingBuf)
    (h0 : 0 < n) (hU : n < USIZE)
    (hrun : runOps (RingBuf.new n) ops = some r) :
    r.len ≤ n ∧ r.len = (specRun n [] ops).length := by
  have hq : (RingBuf.new n).len = ([] : List Nat).length := new_len n
  obtain ⟨hI', hn, hlen⟩ :=
    runOps_sim n ops (RingBuf.new n) [] (inv_new h0 hU) rfl hq r hrun
  exact ⟨hn ▸ hI'.2.2.2.2.2, hlen⟩

theorem C1_occupied_count_witness :
    0 < 3 ∧ 3 < USIZE ∧
      runOps (RingBuf.new 3) [Op.enq 5, Op.enq 6, Op.deq] = some sampleMid3 ∧
      (sampleMid3.len ≤ 3 ∧
        sampleMid3.len = (specRun 3 [] [Op.enq 5, Op.enq 6, Op.deq]).length) :=
  ⟨by decide, by decide, by decide,
    C1_occupied_count 3 [Op.enq 5, Op.enq 6, Op.deq] sampleMid3
      (by decide) (by decide) (by decide)⟩

/-- C2: `enqueue` on a non-full buffer returns `true`, stores the value at
slot `write_cursor mod capacity`, advances the write cursor by exactly one
(raising the occupied count by one) and leaves the read cursor alone; on a
full buffer it returns `false` and leaves the entire state unchanged. -/
theorem C2_enqueue_contract (r : RingBuf) (v : Nat) (hI : Inv r) :
    (r.len = r.cap → r.enqueue v = some (r, false)) ∧
    (r.len ≠ r.cap →
      r.enqueue v = some (enqNext r v, true) ∧
      (enqNext r v).writer = wrapping_add r.writer 1 ∧
      (enqNext r v).reader = r.reader ∧
      (enqNext r v).buffer = r.buffer.set (r.phy r.writer) v ∧
      (enqNext r v).len = r.len + 1) := by
  obtain ⟨h1, h2, h3, h4, h5, h6⟩ := hI
  have hcap : r.cap = r.length := rfl
  refine ⟨fun h => RingBuf.enqueue_full h v,
    fun h => ⟨RingBuf.enqueue_not_full h v, rfl, rfl, rfl, ?_⟩⟩
  exact r.len_enqNext v h1 h2 (by omega)

theorem C2_enqueue_contract_witness :
    Inv sampleEmpty2 ∧
      ((sampleEmpty2.len = sampleEmpty2.cap →
        sampleEmpty2.enqueue 7 = some (sampleEmpty2, false)) ∧
      (sampleEmpty2.len ≠ sampleEmpty2.cap →
        sampleEmpty2.enqueue 7 = some (enqNext sampleEmpty2 7, true) ∧
        (enqNext sampleEmpty2 7).writer = wrapping_add sampleEmpty2.writer 1 ∧
        (enqNext sampleEmpty2 7).reader = sampleEmpty2.reader ∧
        (enqNext sampleEmpty2 7).buffer =
          sampleEmpty2.buffer.set (sampleEmpty2.phy sampleEmpty2.writer) 7 ∧
        (enqNext sampleEmpty2 7).len = sampleEmpty2.len + 1)) :=
  ⟨by decide, C2_enqueue_contract sampleEmpty2 7 (by decide)⟩

/-- C3: `dequeue` on an empty buffer returns `None` and leaves the state
unchanged; otherwise it returns the element at slot `read_cursor mod
capacity` and advances the read cursor by exactly one, lowering the occupied
count by one and leaving the write cursor and storage alone. -/
theorem C3_dequeue_contract (r : RingBuf) (hI : Inv r) :
    (r.len = 0 → r.dequeue = some (r, none)) ∧
    (r.len ≠ 0 →
      r.dequeue = some (deqNext r, some (r.buffer.getD (r.phy r.reader) 0)) ∧
      (deqNext r).reader = wrapping_add r.reader 1 ∧
      (deqNext r).writer = r.writer ∧
      (deqNext r).buffer = r.buffer ∧
      (deqNext r).len = r.len - 1) := by
  obtain ⟨h1, h2, h3, h4, h5, h6⟩ := hI
  constructor
  · intro h
    exact RingBuf.dequeue_empty (wrapping_sub_eq_zero h2 h1 h).symm
  · intro h
    refine ⟨RingBuf.dequeue_not_empty
      (RingBuf.reader_ne_of_len_pos (by omega)), rfl, rfl, rfl, ?_⟩
    exact r.len_deqNext h1 h2 (by omega)

theorem C3_dequeue_contract_witness :
    Inv sampleOne2 ∧
      ((sampleOne2.len = 0 → sampleOne2.dequeue = some (sampleOne2, none)) ∧
      (sampleOne2.len ≠ 0 →
        sampleOne2.dequeue = some (deqNext sampleOne2,
          some (sampleOne2.buffer.getD (sampleOne2.phy sampleOne2.reader) 0)) ∧
        (deqNext sampleOne2).reader = wrapping_add sampleOne2.reader 1 ∧
        (deqNext sampleOne2).writer = sampleOne2.writer ∧
        (deqNext sampleOne2).buffer = sampleOne2.buffer ∧
        (deqNext sampleOne2).len = sampleOne2.len - 1)) :=
  ⟨by decide, C3_dequeue_contract sampleOne2 (by decide)⟩

/-- C4: FIFO ordering — enqueuing `vs` (`|vs| ≤ N`) into a fresh buffer of
capacity `N` succeeds for every element, and dequeuing `|vs|` times then
yields exactly `vs` in order, leaving the buffer empty. -/
theorem C4_fifo_order (n : Nat) (vs : List Nat) (h0 : 0 < n) (hU : n < USIZE)
    (hk : vs.length ≤ n) :
    ∃ r r', RingBuf.enqueueList (RingBuf.new n) vs
        = some (r, List.replicate vs.length true) ∧
      RingBuf.dequeueList r vs.length = some (r', vs) ∧ r'.len = 0 := by
  have hI := inv_new h0 hU
  have hfit : (RingBuf.new n).len + vs.length ≤ (RingBuf.new n).cap := by
    rw [new_len]
    simpa using hk
  obtain ⟨r, henq, _, _, hlen, hI', habs⟩ :=
    enqueueList_spec (RingBuf.new n) hI hfit
  have hgood : (RingBuf.new n).cap ∣ USIZE ∨
      (RingBuf.new n).reader + (RingBuf.new n).cap ≤ USIZE := by
    right
    show 0 + n ≤ USIZE
    omega
  have habs' : absQueue r = vs := by
    rw [habs hgood, absQueue_nil _ (new_len n), List.nil_append]
  have hlenr : r.len = vs.length := by
    rw [hlen, new_len]
    omega
  obtain ⟨r', hdeq, _, _, _, hlen2, _, _⟩ :=
    dequeueList_spec r hI' (le_of_eq hlenr.symm)
  rw [habs', List.take_length] at hdeq
  exact ⟨r, r', henq, hdeq, by omega⟩

theorem C4_fifo_order_witness :
    0 < 3 ∧ 3 < USIZE ∧ ([1, 2] : List Nat).length ≤ 3 ∧
      (∃ r r', RingBuf.enqueueList (RingBuf.new 3) [1, 2]
          = some (r, List.replicate ([1, 2] : List Nat).length true) ∧
        RingBuf.dequeueList r ([1, 2] : List Nat).length = some (r', [1, 2]) ∧
        r'.len = 0) :=
  ⟨by decide, by decide, by decide,
    C4_fifo_order 3 [1, 2] (by decide) (by decide) (by decide)⟩

/-- C5: with `R = cap - len` free slots, `write buf` returns
`n = min(R, |buf|)`, enqueues exactly the first `n` elements of `buf` in
order (each underlying `enqueue` returning `true`), raises the occupied
count by `n`, and (under the wrap-correctness side condition) appends
exactly those elements to the abstract queue; a longer input is a short
write, not an error. -/
theorem C5_write_short (r : RingBuf) (buf : List Nat) (hI : Inv r) :
    r.rem = r.cap - r.len ∧
    ∃ r', r.write buf = some (r', min r.rem buf.length) ∧
      RingBuf.enqueueList r (buf.take (min r.rem buf.length))
        = some (r', List.replicate (min r.rem buf.length) true) ∧
      r'.len = r.len + min r.rem buf.length ∧
      ((r.cap ∣ USIZE ∨ r.reader + r.cap ≤ USIZE) →
        absQueue r' = absQueue r ++ buf.take (min r.rem buf.length)) := by
  obtain ⟨r', h1, h2, _, _, h5, _, h7⟩ := write_spec r buf hI
  exact ⟨r.rem_eq hI.2.2.2.2.2 hI.2.2.2.2.1, r', h1, h2, h5, h7⟩

theorem C5_write_short_witness :
    Inv sampleMid3 ∧
      (sampleMid3.rem = sampleMid3.cap - sampleMid3.len ∧
      ∃ r', sampleMid3.write [7, 8, 9]
          = some (r', min sampleMid3.rem ([7, 8, 9] : List Nat).length) ∧
        RingBuf.enqueueList sampleMid3
            (([7, 8, 9] : List Nat).take
              (min sampleMid3.rem ([7, 8, 9] : List Nat).length))
          = some (r', List.replicate
              (min sampleMid3.rem ([7, 8, 9] : List Nat).length) true) ∧
        r'.len = sampleMid3.len +
            min sampleMid3.rem ([7, 8, 9] : List Nat).length ∧
        ((sampleMid3.cap ∣ USIZE ∨
            sampleMid3.reader + sampleMid3.cap ≤ USIZE) →
          absQueue r' = absQueue sampleMid3 ++
            ([7, 8, 9] : List Nat).take
              (min sampleMid3.rem ([7, 8, 9] : List Nat).length))) :=
  ⟨by decide, C5_write_short sampleMid3 [7, 8, 9] (by decide)⟩

/-- C6: with `Q = len` occupied slots, `read buf` returns `n = min(Q, |buf|)`,
overwrites exactly the first `n` cells of the output with the first `n`
queued elements in FIFO order, removes exactly those from the buffer, and
empties the buffer whenever the output has room for all `Q` elements. -/
theorem C6_read_short (r : RingBuf) (buf : List Nat) (hI : Inv r) :
    ∃ r', r.read buf = some (r',
        ((absQueue r).take (min r.len buf.length) ++
          buf.drop (min r.len buf.length), min r.len buf.length)) ∧
      r'.len = r.len - min r.len buf.length ∧
      absQueue r' = (absQueue r).drop (min r.len buf.length) ∧
      r'.writer = r.writer ∧ r'.buffer = r.buffer ∧
      (r.len ≤ buf.length → r'.len = 0) := by
  obtain ⟨r', h1, hw, hb, _, h5, h6, _⟩ := read_spec r buf hI
  refine ⟨r', h1, h5, h6, hw, hb, fun h => ?_⟩
  rw [h5]
  omega

theorem C6_read_short_witness :
    Inv sampleMid3 ∧
      (∃ r', sampleMid3.read [0, 0]
          = some (r', ((absQueue sampleMid3).take
              (min sampleMid3.len ([0, 0] : List Nat).length) ++
            ([0, 0] : List Nat).drop
              (min sampleMid3.len ([0, 0] : List Nat).length),
            min sampleMid3.len ([0, 0] : List Nat).length)) ∧
        r'.len = sampleMid3.len -
            min sampleMid3.len ([0, 0] : List Nat).length ∧
        absQueue r' = (absQueue sampleMid3).drop
            (min sampleMid3.len ([0, 0] : List Nat).length) ∧
        r'.writer = sampleMid3.writer ∧ r'.buffer = sampleMid3.buffer ∧
        (sampleMid3.len ≤ ([0, 0] : List Nat).length → r'.len = 0)) :=
  ⟨by decide, C6_read_short sampleMid3 [0, 0] (by decide)⟩

/-- C7: round trip — on a fresh buffer of capacity `N`, `write` of a
length-`N` input returns `N`, and a following `read` into an output of
length ≥ `N` returns `N` and reproduces the input in the first `N` output
cells. -/
theorem C7_round_trip (n : Nat) (buf out : List Nat) (h0 : 0 < n)
    (hU : n < USIZE) (hbuf : buf.length = n) (hout : n ≤ out.length) :
    ∃ r r', (RingBuf.new n).write buf = some (r, n) ∧
      r.read out = some (r', (buf ++ out.drop n, n)) ∧
      (buf ++ out.drop n).take n = buf := by
  have hI := inv_new h0 hU
  obtain ⟨r, hw, _, _, _, hlen, hI', habs⟩ := write_spec (RingBuf.new n) buf hI
  have hrem : (RingBuf.new n).rem = n := by
    have h := (RingBuf.new n).rem_eq (by rw [new_len]; omega) hU
    rw [new_len] at h
    simpa using h
  have hmin : min (RingBuf.new n).rem buf.length = n := by
    rw [hrem, hbuf, Nat.min_self]
  rw [hmin] at hw hlen habs
  have hgood : (RingBuf.new n).cap ∣ USIZE ∨
      (RingBuf.new n).reader + (RingBuf.new n).cap ≤ USIZE :=
    Or.inr (le_trans (Nat.le_of_eq (Nat.zero_add n)) (Nat.le_of_lt hU))
  have htake : buf.take n = buf := by
    rw [← hbuf, List.take_length]
  have habs' : absQueue r = buf := by
    rw [habs hgood, absQueue_nil _ (new_len n), List.nil_append, htake]
  have hlenr : r.len = n := by
    rw [hlen, new_len]
    exact Nat.zero_add n
  obtain ⟨r', hr, _, _, _, _, _, _⟩ := read_spec r out hI'
  have hmin2 : min r.len out.length = n := by
    rw [hlenr]
    exact Nat.min_eq_left hout
  rw [hmin2, habs', htake] at hr
  refine ⟨r, r', hw, hr, ?_⟩
  rw [← hbuf, List.take_left]

theorem C7_round_trip_witness :
    0 < 2 ∧ 2 < USIZE ∧ ([3, 4] : List Nat).length = 2 ∧
      2 ≤ ([0, 0, 0] : List Nat).length ∧
      (∃ r r', (RingBuf.new 2).write [3, 4] = some (r, 2) ∧
        r.read [0, 0, 0] = some (r', ([3, 4] ++ ([0, 0, 0] : List Nat).drop 2, 2)) ∧
        (([3, 4] : List Nat) ++ ([0, 0, 0] : List Nat).drop 2).take 2 = [3, 4]) :=
  ⟨by decide, by decide, by decide, by decide,
    C7_round_trip 2 [3, 4] [0, 0, 0] (by decide) (by decide) (by decide)
      (by decide)⟩

/-- C9: the defensive assertions abort exactly when their preconditions are
violated (`incr_reader` on empty, `incr_writer` on full), and from every
state reachable through the public API no assertion and no `expect` inside
`read` can fire: all four public operations return a value. -/
theorem C9_no_panic (n : Nat) (r : RingBuf) (v : Nat) (buf : List Nat)
    (h0 : 0 < n) (hU : n < USIZE) (hr : Reachable n r) :
    (r.enqueue v).isSome = true ∧ r.dequeue.isSome = true ∧
    (r.write buf).isSome = true ∧ (r.read buf).isSome = true ∧
    (∀ s : RingBuf, s.is_empty = true → s.incr_reader = none) ∧
    (∀ s : RingBuf, s.is_full = true → s.incr_writer = none) := by
  obtain ⟨hI, _⟩ := reach_inv h0 hU hr
  refine ⟨?_, ?_, ?_, ?_, ?_, ?_⟩
  · by_cases h : r.len = r.cap
    · rw [RingBuf.enqueue_full h]; rfl
    · rw [RingBuf.enqueue_not_full h]; rfl
  · by_cases h : r.reader = r.writer
    · rw [RingBuf.dequeue_empty h]; rfl
    · rw [RingBuf.dequeue_not_empty h]; rfl
  · obtain ⟨r', h, _⟩ := write_spec r buf hI
    rw [h]; rfl
  · obtain ⟨r', h, _⟩ := read_spec r buf hI
    rw [h]; rfl
  · intro s hs
    simp [RingBuf.incr_reader, hs]
  · intro s hs
    simp [RingBuf.incr_writer, hs]

theorem C9_no_panic_witness :
    0 < 2 ∧ 2 < USIZE ∧ Reachable 2 (RingBuf.new 2) ∧
      (((RingBuf.new 2).enqueue 7).isSome = true ∧
      (RingBuf.new 2).dequeue.isSome = true ∧
      ((RingBuf.new 2).write [1]).isSome = true ∧
      ((RingBuf.new 2).read [1]).isSome = true ∧
      (∀ s : RingBuf, s.is_empty = true → s.incr_reader = none) ∧
      (∀ s : RingBuf, s.is_full = true → s.incr_writer = none)) :=
  ⟨by decide, by decide, Reachable.init,
    C9_no_panic 2 (RingBuf.new 2) 7 [1] (by decide) (by decide) Reachable.init⟩

/-- C10: frame property — a successful `enqueue` changes only the write
cursor and the single storage slot `write_cursor mod capacity`, leaving the
read cursor and every other slot unchanged; a successful `dequeue` changes
only the read cursor, leaving the write cursor and the whole storage
unchanged. -/
theorem C10_frame (r r' : RingBuf) (v : Nat) :
    (r.enqueue v = some (r', true) →
      r'.reader = r.reader ∧ r'.length = r.length ∧
      r'.writer = wrapping_add r.writer 1 ∧
      r'.buffer = r.buffer.set (r.phy r.writer) v ∧
      ∀ j, j ≠ r.phy r.writer → r'.buffer.getD j 0 = r.buffer.getD j 0) ∧
    (∀ w, r.dequeue = some (r', some w) →
      r'.writer = r.writer ∧ r'.length = r.length ∧ r'.buffer = r.buffer ∧
      r'.reader = wrapping_add r.reader 1) := by
  constructor
  · intro h
    by_cases hf : r.len = r.cap
    · rw [RingBuf.enqueue_full hf] at h
      exact absurd h (by simp)
    · rw [RingBuf.enqueue_not_full hf] at h
      injection h with h'
      have h2 : enqNext r v = r' := congrArg Prod.fst h'
      subst h2
      exact ⟨rfl, rfl, rfl, rfl,
        fun j hj => getD_set_ne r.buffer (r.phy r.writer) j (Ne.symm hj) v 0⟩
  · intro w h
    by_cases he : r.reader = r.writer
    · rw [RingBuf.dequeue_empty he] at h
      exact absurd h (by simp)
    · rw [RingBuf.dequeue_not_empty he] at h
      injection h with h'
      have h2 : deqNext r = r' := congrArg Prod.fst h'
      subst h2
      exact ⟨rfl, rfl, rfl, rfl⟩

theorem C10_frame_witness :
    ((sampleEmpty2.enqueue 7 = some (enqNext sampleEmpty2 7, true) →
      (enqNext sampleEmpty2 7).reader = sampleEmpty2.reader ∧
      (enqNext sampleEmpty2 7).length = sampleEmpty2.length ∧
      (enqNext sampleEmpty2 7).writer = wrapping_add sampleEmpty2.writer 1 ∧
      (enqNext sampleEmpty2 7).buffer =
        sampleEmpty2.buffer.set (sampleEmpty2.phy sampleEmpty2.writer) 7 ∧
      ∀ j, j ≠ sampleEmpty2.phy sampleEmpty2.writer →
        (enqNext sampleEmpty2 7).buffer.getD j 0 =
          sampleEmpty2.buffer.getD j 0) ∧
    (∀ w, sampleEmpty2.dequeue = some (enqNext sampleEmpty2 7, some w) →
      (enqNext sampleEmpty2 7).writer = sampleEmpty2.writer ∧
      (enqNext sampleEmpty2 7).length = sampleEmpty2.length ∧
      (enqNext sampleEmpty2 7).buffer = sampleEmpty2.buffer ∧
      (enqNext sampleEmpty2 7).reader = wrapping_add sampleEmpty2.reader 1)) :=
  C10_frame sampleEmpty2 (enqNext sampleEmpty2 7) 7

theorem set3 (i : Nat) : ([0, 0, 0] : List Nat).set i 0 = [0, 0, 0] := by
  rcases i with _ | _ | _ | m <;> rfl

/-- Enqueuing `0` into an empty capacity-3 buffer with both cursors at `k`
bumps the writer to `k + 1` and leaves the zero storage unchanged. -/
theorem stepOp_diag_enq (k : Nat) (hk : k + 1 < USIZE) :
    stepOp (diag3 k) (Op.enq 0) = some (diag3' k) := by
  have hfull : (diag3 k).len ≠ (diag3 k).cap := by
    show wrapping_sub k k ≠ 3
    rw [wrapping_sub_self]
    omega
  have hadd : wrapping_add k 1 = k + 1 := Nat.mod_eq_of_lt hk
  rw [stepOp, RingBuf.enqueue_not_full hfull]
  simp [diag3, diag3', enqNext, RingBuf.phy, RingBuf.cap, hadd, set3]

/-- Dequeuing from the capacity-3 buffer with cursors `(k, k+1)` bumps the
reader to `k + 1`. -/
theorem stepOp_diag_deq (k : Nat) (hk : k + 1 < USIZE) :
    stepOp (diag3' k) Op.deq = some (diag3 (k + 1)) := by
  have hne : (diag3' k).reader ≠ (diag3' k).writer := by
    show k ≠ k + 1
    omega
  rw [stepOp, RingBuf.dequeue_not_empty hne]
  simp [diag3, diag3', deqNext, wrapping_add, Nat.mod_eq_of_lt hk]

/-- Every diagonal state (cursors equal, zeroed storage) of the capacity-3
buffer is reachable: run `k` enqueue/dequeue pairs. -/
theorem reach_diag : ∀ k, k < USIZE → Reachable 3 (diag3 k) := by
  intro k
  induction k with
  | zero =>
    intro _
    exact Reachable.init
  | succ m ih =>
    intro hk
    have h1 := Reachable.step (ih (by omega)) (stepOp_diag_enq m hk)
    exact Reachable.step h1 (stepOp_diag_deq m hk)

/-- C8 (counterexample): the claim fails as stated.  `wrapEmpty3` — the empty
capacity-3 buffer with both cursors at `2^64 - 1` — is reachable through the
public API (by `2^64 - 1` enqueue/dequeue pairs), its capacity 3 does not
divide `2^64`, and from it enqueueing `1` and then `2` (both succeeding)
followed by one dequeue returns `2`, not the first-enqueued `1`: because
`(2^64 - 1) % 3 = 0 = 2^64 % 3`, both enqueues store to physical slot 0, so
the slot mapping and FIFO ordering break across the `2^64` wrap point. -/
theorem C8_wrap_counterexample :
    Reachable 3 wrapEmpty3 ∧ wrapEmpty3.is_empty = true ∧
      wrapEmpty3.cap = 3 ∧ ¬ wrapEmpty3.cap ∣ USIZE ∧
      ∃ r1 r2 r3, wrapEmpty3.enqueue 1 = some (r1, true) ∧
        r1.enqueue 2 = some (r2, true) ∧
        r2.dequeue = some (r3, some 2) ∧ (2 : Nat) ≠ 1 := by
  refine ⟨?_, by decide, by decide, by decide, ?_⟩
  · have h := reach_diag (USIZE - 1) (by have := USIZE_pos; omega)
    exact h
  · exact ⟨{ reader := USIZE - 1, writer := 0, length := 3, buffer := [1, 0, 0] },
      { reader := USIZE - 1, writer := 1, length := 3, buffer := [2, 0, 0] },
      { reader := 0, writer := 1, length := 3, buffer := [2, 0, 0] },
      by decide, by decide, by decide, by decide⟩

/-- C8 (amended): cursor wraparound is transparent whenever the capacity
divides `2^64` — which covers every power-of-two capacity and hence every
storage size the crate's macros provide.  For such capacities, at any
invariant state (wrapped cursors included): the slot mapping advances by one
modulo the capacity across the wrap point, emptiness/fullness tests agree
with the occupied count, a non-full enqueue succeeds and appends to the
abstract FIFO queue, and a non-empty dequeue succeeds and pops its head. -/
theorem C8_wrap_amended (r : RingBuf) (v p : Nat) (hI : Inv r)
    (hd : r.cap ∣ USIZE) :
    r.phy (wrapping_add p 1) = (r.phy p + 1) % r.cap ∧
    (r.is_empty = true ↔ r.len = 0) ∧
    (r.is_full = true ↔ r.len = r.cap) ∧
    (r.len < r.cap →
      r.enqueue v = some (enqNext r v, true) ∧
      (enqNext r v).len = r.len + 1 ∧
      absQueue (enqNext r v) = absQueue r ++ [v]) ∧
    (0 < r.len →
      r.dequeue = some (deqNext r, some ((absQueue r).headD 0)) ∧
      (deqNext r).len = r.len - 1 ∧
      absQueue (deqNext r) = (absQueue r).tail) := by
  obtain ⟨h1, h2, h3, h4, h5, h6⟩ := hI
  have hcap : r.cap = r.length := rfl
  refine ⟨?_, r.is_empty_iff h1 h2, r.is_full_iff, ?_, ?_⟩
  · show ((p + 1) % USIZE) % r.cap = (p % r.cap + 1) % r.cap
    rw [Nat.mod_mod_of_dvd _ hd, Nat.mod_add_mod]
  · intro h
    exact ⟨RingBuf.enqueue_not_full (by omega) v,
      r.len_enqNext v h1 h2 (by omega),
      absQueue_enqNext r ⟨h1, h2, h3, h4, h5, h6⟩ h (Or.inl hd) v⟩
  · intro h
    have hne := RingBuf.reader_ne_of_len_pos h
    refine ⟨?_, r.len_deqNext h1 h2 h, ?_⟩
    · rw [RingBuf.dequeue_not_empty hne, absQueue_headD r h1 h]
    · rw [absQueue_deqNext r ⟨h1, h2, h3, h4, h5, h6⟩ h]
      rfl

theorem C8_wrap_amended_witness :
    Inv wrapEmpty4 ∧ wrapEmpty4.cap ∣ USIZE ∧
      (wrapEmpty4.phy (wrapping_add (USIZE - 1) 1)
          = (wrapEmpty4.phy (USIZE - 1) + 1) % wrapEmpty4.cap ∧
      (wrapEmpty4.is_empty = true ↔ wrapEmpty4.len = 0) ∧
      (wrapEmpty4.is_full = true ↔ wrapEmpty4.len = wrapEmpty4.cap) ∧
      (wrapEmpty4.len < wrapEmpty4.cap →
        wrapEmpty4.enqueue 5 = some (enqNext wrapEmpty4 5, true) ∧
        (enqNext wrapEmpty4 5).len = wrapEmpty4.len + 1 ∧
        absQueue (enqNext wrapEmpty4 5) = absQueue wrapEmpty4 ++ [5]) ∧
      (0 < wrapEmpty4.len →
        wrapEmpty4.dequeue
            = some (deqNext wrapEmpty4, some ((absQueue wrapEmpty4).headD 0)) ∧
        (deqNext wrapEmpty4).len = wrapEmpty4.len - 1 ∧
        absQueue (deqNext wrapEmpty4) = (absQueue wrapEmpty4).tail)) :=
  ⟨by decide, by decide,
    C8_wrap_amended wrapEmpty4 5 (USIZE - 1) (by decide) (by decide)⟩

end SimpleRing
